import Mathlib

/-!
# Verification of `datajoin` (src/datajoin.py)

Shallow embedding of the rheometer-report consolidation tool:

* `transform_value` — the Value Coercer (int, then float, then raw text);
* `read_data` — the Record Reader (timestamp cell extraction, trailing
  header/value rows zipped into a record);
* `sniff_dialect` — the Dialect Sniffer (bounded sample, fallback dialect,
  stream rewind);
* `calculate_rates` — the Stroke Merger (chronological fold of forward and
  reverse stroke readings keyed by (speed, shear rate)).

Python machine floats are modelled as exact rationals (the decimal literals
the coercer parses all have exact rational values); Python `datetime` values
are modelled as an abstract totally ordered stamp (`Int`); CSV cell values
used by the merger are modelled as `Int`, which supports the tuple ordering
the source relies on.  Fallible Python code (exceptions) is modelled with
`Option`: `none` is an uncaught exception.
-/

namespace Datajoin

/-- A Python value as produced by the Value Coercer: an integer, a float
(modelled as an exact rational) or the original string. -/
inductive PyVal where
  | int (n : Int)
  | float (q : Rat)
  | str (s : String)
deriving DecidableEq, Repr

/-- Numeric value of a list of decimal digit characters. -/
def digitsVal (cs : List Char) : Nat :=
  cs.foldl (fun acc c => 10 * acc + (c.toNat - 48)) 0

/-- Remove leading and trailing space characters. -/
def stripSpaces (cs : List Char) : List Char :=
  ((cs.dropWhile (fun c => c = ' ')).reverse.dropWhile (fun c => c = ' ')).reverse

/-- Split an optional leading sign off a character list. -/
def splitSign : List Char → Int × List Char
  | '+' :: cs => (1, cs)
  | '-' :: cs => (-1, cs)
  | cs => (1, cs)

/-- Modelled from the Python builtin `int(str)` as used by `transform_value`
(src/datajoin.py line 64): optional surrounding spaces, an optional sign and a
nonempty run of ASCII decimal digits; anything else raises `ValueError`
(here: `none`).  Non-ASCII digits, underscores and non-space whitespace are
out of scope of this model. -/
def pyParseInt (s : String) : Option Int :=
  let cs := stripSpaces s.data
  let (sgn, ds) := splitSign cs
  if ds ≠ [] ∧ ds.all Char.isDigit then some (sgn * (digitsVal ds : Int)) else none

/-- Split a character list at the first occurrence of the decimal dot. -/
def splitDot : List Char → List Char × Option (List Char)
  | [] => ([], none)
  | c :: cs =>
    if c = '.' then ([], some cs)
    else
      let (pre, post) := splitDot cs
      (c :: pre, post)

/-- Split a character list at the first exponent marker (lower or upper). -/
def splitExp : List Char → List Char × Option (List Char)
  | [] => ([], none)
  | c :: cs =>
    if c = 'e' ∨ c = 'E' then ([], some cs)
    else
      let (pre, post) := splitExp cs
      (c :: pre, post)

/-- Mantissa of a decimal literal: integer part, optional fractional part;
at least one digit overall.  Returns (signless numerator, number of
fractional digits). -/
def parseMantissa (cs : List Char) : Option (Nat × Nat) :=
  match splitDot cs with
  | (ip, none) =>
    if ip ≠ [] ∧ ip.all Char.isDigit then some (digitsVal ip, 0) else none
  | (ip, some fp) =>
    if (ip ≠ [] ∨ fp ≠ []) ∧ ip.all Char.isDigit ∧ fp.all Char.isDigit then
      some (digitsVal ip * 10 ^ fp.length + digitsVal fp, fp.length)
    else none

/-- Modelled from the Python builtin `float(str)` as used by
`transform_value` (src/datajoin.py line 67), restricted to finite decimal
literals: optional surrounding spaces, optional sign, digits with an optional
decimal dot and an optional exponent.  The value is the exact rational the
literal denotes (IEEE rounding is not modelled); `inf`/`nan` spellings and
underscores are out of scope of this model. -/
def pyParseFloat (s : String) : Option Rat :=
  let cs := stripSpaces s.data
  let (sgn, body) := splitSign cs
  let (mant, expPart) := splitExp body
  match parseMantissa mant, expPart with
  | some (m, fdigits), none => some (mkRat (sgn * (m : Int)) (10 ^ fdigits))
  | some (m, fdigits), some ecs =>
    let (esgn, eds) := splitSign ecs
    if eds ≠ [] ∧ eds.all Char.isDigit then
      let e : Int := esgn * (digitsVal eds : Int)
      if 0 ≤ e then
        some (mkRat (sgn * (m : Int) * (10 ^ e.toNat : Nat)) (10 ^ fdigits))
      else
        some (mkRat (sgn * (m : Int)) (10 ^ fdigits * 10 ^ (-e).toNat))
    else none
  | none, _ => none

/-- `transform_value` (src/datajoin.py lines 56–69): try the integer parse,
on failure try the float parse, on failure return the text unchanged. -/
def transform_value (value : String) : PyVal :=
  match pyParseInt value with
  | some n => PyVal.int n
  | none =>
    match pyParseFloat value with
    | some q => PyVal.float q
    | none => PyVal.str value

example : transform_value ("42") = PyVal.int 42 := by decide
example : transform_value ("-7") = PyVal.int (-7) := by decide
example : transform_value (" 12 ") = PyVal.int 12 := by decide
example : transform_value ("2.5") = PyVal.float (mkRat 5 2) := by decide
example : transform_value ("-1.5e1") = PyVal.float (mkRat (-15) 1) := by decide
example : transform_value (".5") = PyVal.float (mkRat 1 2) := by decide
example : transform_value ("1.") = PyVal.float 1 := by decide
example : transform_value ("5e-1") = PyVal.float (mkRat 1 2) := by decide
example : transform_value ("abc") = PyVal.str ("abc") := by decide
example : transform_value ("1.2.3") = PyVal.str ("1.2.3") := by decide
example : transform_value ("") = PyVal.str ("") := by decide
example : transform_value ("1,5") = PyVal.str ("1,5") := by decide

/-! ## Record Reader (`read_data`, src/datajoin.py lines 72–82) -/

/-- A measurement record as returned by `read_data`: the parsed `DT`
timestamp plus the field map obtained by zipping a header row with the
coerced value row.  The field map is kept as the zipped association list. -/
structure PRecord where
  dt : Int
  fields : List (String × PyVal)
deriving DecidableEq, Repr

/-- `read_data` (src/datajoin.py lines 72–82), applied to the parsed CSV grid
of the file.  `dtparse` models `dateutil.parser.parse` (an external permissive
parser; `none` is a parse exception).  Python list indexing raises on
out-of-range indices, modelled by `none`: `data[7][2]`/`data[7][3]` need at
least 8 rows with at least 4 cells in row index 7, `data[-3]`/`data[-1]` need
at least 3 rows.  `zip` truncates to the shorter of the two rows. -/
def read_data (dtparse : String → Option Int) (data : List (List String)) :
    Option PRecord :=
  match data[7]? with
  | none => none
  | some row7 =>
    match row7[2]?, row7[3]? with
    | some c2, some c3 =>
      match dtparse (c2 ++ " " ++ c3) with
      | none => none
      | some dt =>
        match (if 3 ≤ data.length then data[data.length - 3]? else none),
              (if 1 ≤ data.length then data[data.length - 1]? else none) with
        | some names, some vals =>
          some ⟨dt, names.zip (vals.map transform_value)⟩
        | _, _ => none
    | _, _ => none

/-- A `dateutil.parser.parse` stand-in that accepts everything. -/
def dtparseAny : String → Option Int := fun _ => some 0

/-- A `dateutil.parser.parse` stand-in that rejects everything. -/
def dtparseNone : String → Option Int := fun _ => none

/-- An 11-row grid whose three trailing rows are pairwise different, to
separate the header-row candidates: row index 8 (third to last) is `["A"]`,
row index 9 (second to last) is `["B"]`, row index 10 (last) is `["1"]`. -/
def gridC3 : List (List String) :=
  [[], [], [], [], [], [], [], ["", "", "d", "t"], ["A"], ["B"], ["1"]]

/-- An 11-row grid whose third-to-last row has 2 cells while the last row
has 1 cell — ragged trailing rows. -/
def gridC4 : List (List String) :=
  [[], [], [], [], [], [], [], ["", "", "d", "t"], ["A", "B"], [], ["1"]]

example : read_data dtparseAny gridC3 =
    some ⟨0, [("A", PyVal.int 1)]⟩ := by decide
example : read_data dtparseAny gridC4 =
    some ⟨0, [("A", PyVal.int 1)]⟩ := by decide
example : read_data dtparseAny [] = none := by decide
example : read_data dtparseNone gridC3 = none := by decide

/-! ## Stroke Merger (`calculate_rates`, src/datajoin.py lines 112–146)

Only the five fields the merger reads are modelled; the `DT` stamp and the
four numeric channels are `Int` (any totally ordered, decidably equal value
type works — the source relies on tuple ordering of the key pair). -/

/-- A measurement point as consumed by `calculate_rates`. -/
structure Record where
  dt : Int
  speed : Int
  shearRate : Int
  viscosity : Int
  shearStress : Int
deriving DecidableEq, Repr

/-- A group key: the pair `(point['Speed'], point['Shear Rate'])`. -/
abbrev GKey := Int × Int

/-- `point_index` in the source: the key of a record. -/
def pointIndex (p : Record) : GKey := (p.speed, p.shearRate)

/-- Comparison key of the record sort: `sorted(points, key=lambda p: p['DT'])`. -/
def dtLe (a b : Record) : Prop := a.dt ≤ b.dt

instance : DecidableRel dtLe := fun a b => Int.decLe a.dt b.dt

instance : IsTotal Record dtLe := ⟨fun a b => Int.le_total a.dt b.dt⟩

instance : IsTrans Record dtLe := ⟨fun _ _ _ h₁ h₂ => le_trans h₁ h₂⟩

/-- Python tuple ordering (≤) on group keys: lexicographic on the pair. -/
def keyle (a b : GKey) : Prop := a.1 < b.1 ∨ (a.1 = b.1 ∧ a.2 ≤ b.2)

/-- Python tuple ordering (<) on group keys: strict lexicographic order. -/
def keylt (a b : GKey) : Prop := a.1 < b.1 ∨ (a.1 = b.1 ∧ a.2 < b.2)

instance : DecidableRel keyle := fun a b =>
  inferInstanceAs (Decidable (a.1 < b.1 ∨ (a.1 = b.1 ∧ a.2 ≤ b.2)))

instance : IsTotal GKey keyle := ⟨by
  rintro ⟨a1, a2⟩ ⟨b1, b2⟩
  simp only [keyle]
  omega⟩

instance : IsTrans GKey keyle := ⟨by
  rintro ⟨a1, a2⟩ ⟨b1, b2⟩ ⟨c1, c2⟩
  simp only [keyle]
  omega⟩

instance : IsAntisymm GKey keyle := ⟨by
  rintro ⟨a1, a2⟩ ⟨b1, b2⟩ h₁ h₂
  simp only [keyle] at h₁ h₂
  simp only [Prod.mk.injEq]
  omega⟩

/-- `sorted(points, key=lambda p: p['DT'])`: a stable sort on the stamp
(insertion sort is stable, like Python's sort). -/
def sortedPoints (points : List Record) : List Record :=
  List.insertionSort dtLe points

/-- `sorted(list({(p['Speed'], p['Shear Rate']) for p in sorted_points}))`:
the distinct group keys in ascending tuple order. -/
def orderOf (points : List Record) : List GKey :=
  List.insertionSort keyle (((sortedPoints points).map pointIndex).dedup)

/-- The mutable `output` dict of the merge loop, as a partial map. -/
def OutMap := GKey → Option (List Int)

/-- The empty `output` dict. -/
def emptyOut : OutMap := fun _ => none

/-- `output[k] = row`. -/
def updateOut (out : OutMap) (k : GKey) (row : List Int) : OutMap :=
  fun j => if j = k then some row else out j

/-- The 6-value row written for the maximum point (src lines 126–133):
the single reading duplicated into both stroke slots. -/
def dupRow (p : Record) : List Int :=
  [p.speed, p.shearRate, p.viscosity, p.shearStress, p.viscosity, p.shearStress]

/-- The 4-value row created on the first occurrence of a key
(src lines 139–144). -/
def fwdRow (p : Record) : List Int :=
  [p.speed, p.shearRate, p.viscosity, p.shearStress]

/-- The 6-value row after the reverse-stroke extension (src line 136):
forward row of `p` extended with the readings of `q`. -/
def pairRow (p q : Record) : List Int :=
  [p.speed, p.shearRate, p.viscosity, p.shearStress, q.viscosity, q.shearStress]

/-- One iteration of the merge loop (src/datajoin.py lines 123–144). -/
def step (maxPoint : GKey) (out : OutMap) (p : Record) : OutMap :=
  if pointIndex p = maxPoint then
    updateOut out (pointIndex p) (dupRow p)
  else
    match out (pointIndex p) with
    | some row =>
      if row.length < 6 then
        updateOut out (pointIndex p) (row ++ [p.viscosity, p.shearStress])
      else out
    | none => updateOut out (pointIndex p) (fwdRow p)

/-- The whole merge loop: fold `step` over the chronologically sorted
records, starting from the empty dict. -/
def foldOut (maxPoint : GKey) (ps : List Record) : OutMap :=
  ps.foldl (step maxPoint) emptyOut

/-- `[output[index] for index in order]`, with a missing key (Python
`KeyError`) modelled as `none`. -/
def collectRows (out : OutMap) : List GKey → Option (List (List Int))
  | [] => some []
  | k :: ks =>
    match out k, collectRows out ks with
    | some row, some rows => some (row :: rows)
    | _, _ => none

/-- `calculate_rates` (src/datajoin.py lines 112–146).  `order[-1]` on the
empty key list raises `IndexError`, modelled as `none`. -/
def calculate_rates (points : List Record) : Option (List (List Int)) :=
  match (orderOf points).getLast? with
  | none => none
  | some maxPoint =>
    collectRows (foldOut maxPoint (sortedPoints points)) (orderOf points)

/-! Scratch sanity checks against the spec scenario (T1, T3 share key
(100, 50); T2 has the unique max key (200, 80)). -/

example :
    calculate_rates
      [⟨1, 100, 50, 10, 11⟩, ⟨2, 200, 80, 20, 21⟩, ⟨3, 100, 50, 30, 31⟩] =
    some [[100, 50, 10, 11, 30, 31], [200, 80, 20, 21, 20, 21]] := by decide

example : calculate_rates [] = none := by decide

example :
    calculate_rates [⟨5, 100, 50, 10, 11⟩, ⟨4, 200, 80, 20, 21⟩] =
    some [[100, 50, 10, 11], [200, 80, 20, 21, 20, 21]] := by decide

/-! ## Correspondence of the merge loop with a per-key description -/

/-- The records carrying key `k`, in processing order. -/
def occurrences (ps : List Record) (k : GKey) : List Record :=
  ps.filter (fun p => pointIndex p = k)

/-- Closed-form description of the `output` dict after folding `step` over
`ps`: the maximum key holds the duplicated row of its last occurrence; any
other key holds the forward row of its first occurrence, extended by the
readings of the second occurrence when there is one. -/
def mergeSpec (maxPoint : GKey) (ps : List Record) (k : GKey) :
    Option (List Int) :=
  if k = maxPoint then
    (occurrences ps maxPoint).getLast?.map dupRow
  else
    match occurrences ps k with
    | [] => none
    | [p] => some (fwdRow p)
    | p :: q :: _ => some (pairRow p q)

theorem updateOut_self (out : OutMap) (k : GKey) (row : List Int) :
    updateOut out k row k = some row := by
  simp [updateOut]

theorem updateOut_ne (out : OutMap) (k j : GKey) (row : List Int)
    (h : j ≠ k) : updateOut out k row j = out j := by
  simp [updateOut, h]

theorem occurrences_append (ps : List Record) (p : Record) (k : GKey) :
    occurrences (ps ++ [p]) k =
      occurrences ps k ++ (if pointIndex p = k then [p] else []) := by
  simp only [occurrences, List.filter_append, List.filter]
  split
  · next h =>
    rw [if_pos (of_decide_eq_true h)]
  · next h =>
    rw [if_neg (by simpa using h)]

theorem occurrences_append_self (ps : List Record) (p : Record) :
    occurrences (ps ++ [p]) (pointIndex p) =
      occurrences ps (pointIndex p) ++ [p] := by
  rw [occurrences_append, if_pos rfl]

theorem occurrences_append_ne (ps : List Record) (p : Record) (k : GKey)
    (h : pointIndex p ≠ k) :
    occurrences (ps ++ [p]) k = occurrences ps k := by
  rw [occurrences_append, if_neg h, List.append_nil]

/-- `step` leaves every key other than the current record's key unchanged. -/
theorem step_apply_ne (mp : GKey) (out : OutMap) (p : Record) (j : GKey)
    (h : j ≠ pointIndex p) : step mp out p j = out j := by
  unfold step
  split
  · exact updateOut_ne _ _ _ _ h
  · cases out (pointIndex p) with
    | none => exact updateOut_ne _ _ _ _ h
    | some row =>
      simp only []
      split
      · exact updateOut_ne _ _ _ _ h
      · rfl

theorem mergeSpec_append_ne (mp : GKey) (ps : List Record) (p : Record)
    (k : GKey) (h : pointIndex p ≠ k) :
    mergeSpec mp (ps ++ [p]) k = mergeSpec mp ps k := by
  unfold mergeSpec
  by_cases hkm : k = mp
  · subst hkm
    rw [occurrences_append_ne _ _ _ h]
  · rw [if_neg hkm, if_neg hkm, occurrences_append_ne _ _ _ h]

theorem step_mergeSpec (mp : GKey) (ps : List Record) (p : Record) (k : GKey) :
    step mp (mergeSpec mp ps) p k = mergeSpec mp (ps ++ [p]) k := by
  by_cases hk : k = pointIndex p
  · subst hk
    by_cases hpm : pointIndex p = mp
    · rw [show step mp (mergeSpec mp ps) p (pointIndex p) =
          some (dupRow p) by
        unfold step
        rw [if_pos hpm, updateOut_self]]
      unfold mergeSpec
      rw [if_pos hpm, occurrences_append, if_pos hpm, List.getLast?_concat,
        Option.map_some']
    · have hspec : mergeSpec mp ps (pointIndex p) =
          match occurrences ps (pointIndex p) with
          | [] => none
          | [p] => some (fwdRow p)
          | p :: q :: _ => some (pairRow p q) := by
        unfold mergeSpec
        rw [if_neg hpm]
      have hrhs : mergeSpec mp (ps ++ [p]) (pointIndex p) =
          match occurrences ps (pointIndex p) ++ [p] with
          | [] => none
          | [p] => some (fwdRow p)
          | p :: q :: _ => some (pairRow p q) := by
        unfold mergeSpec
        rw [if_neg hpm, occurrences_append_self]
      rcases hocc : occurrences ps (pointIndex p) with _ | ⟨x, _ | ⟨y, rest⟩⟩
      · have h1 : mergeSpec mp ps (pointIndex p) = none := by
          rw [hspec, hocc]
        unfold step
        rw [if_neg hpm]
        simp only [h1]
        rw [updateOut_self, hrhs, hocc]
        simp
      · have h1 : mergeSpec mp ps (pointIndex p) = some (fwdRow x) := by
          rw [hspec, hocc]
        unfold step
        rw [if_neg hpm]
        simp only [h1]
        rw [if_pos (by simp [fwdRow]), updateOut_self, hrhs, hocc]
        simp [fwdRow, pairRow]
      · have h1 : mergeSpec mp ps (pointIndex p) = some (pairRow x y) := by
          rw [hspec, hocc]
        unfold step
        rw [if_neg hpm]
        simp only [h1]
        rw [if_neg (by simp [pairRow]), h1, hrhs, hocc]
        simp
  · have hne : pointIndex p ≠ k := fun h => hk h.symm
    rw [step_apply_ne _ _ _ _ hk, mergeSpec_append_ne _ _ _ _ hne]

theorem foldOut_eq_mergeSpec (mp : GKey) (ps : List Record) :
    foldOut mp ps = mergeSpec mp ps := by
  induction ps using List.reverseRecOn with
  | nil =>
    funext k
    simp [foldOut, emptyOut, mergeSpec, occurrences]
  | append_singleton ps p ih =>
    funext k
    have h1 : foldOut mp (ps ++ [p]) = step mp (foldOut mp ps) p := by
      simp [foldOut, List.foldl_append]
    rw [h1, ih, step_mergeSpec]

/-! ## Ordering facts about the key list -/

theorem sortedPoints_perm (points : List Record) :
    (sortedPoints points).Perm points :=
  List.perm_insertionSort dtLe points

theorem orderOf_sorted (points : List Record) :
    List.Pairwise keyle (orderOf points) :=
  List.sorted_insertionSort keyle _

theorem orderOf_nodup (points : List Record) : (orderOf points).Nodup :=
  (List.perm_insertionSort keyle _).nodup_iff.mpr (List.nodup_dedup _)

theorem keylt_of_keyle_ne {a b : GKey} (hle : keyle a b) (hne : a ≠ b) :
    keylt a b := by
  obtain ⟨a1, a2⟩ := a
  obtain ⟨b1, b2⟩ := b
  simp only [keyle] at hle
  simp only [keylt]
  by_cases h1 : a1 = b1
  · subst h1
    have h2 : a2 ≠ b2 := by
      intro h
      exact hne (by rw [h])
    omega
  · omega

theorem orderOf_pairwise_lt (points : List Record) :
    List.Pairwise keylt (orderOf points) := by
  have h := (orderOf_sorted points).and
    (orderOf_nodup points : List.Pairwise (fun a b => a ≠ b) (orderOf points))
  exact h.imp (fun hab => keylt_of_keyle_ne hab.1 hab.2)

theorem mem_orderOf_iff {points : List Record} {k : GKey} :
    k ∈ orderOf points ↔ ∃ p ∈ points, pointIndex p = k := by
  unfold orderOf
  rw [(List.perm_insertionSort keyle _).mem_iff, List.mem_dedup, List.mem_map]
  constructor
  · rintro ⟨p, hp, rfl⟩
    exact ⟨p, (sortedPoints_perm points).mem_iff.mp hp, rfl⟩
  · rintro ⟨p, hp, rfl⟩
    exact ⟨p, (sortedPoints_perm points).mem_iff.mpr hp, rfl⟩

theorem orderOf_ne_nil {points : List Record} (h : points ≠ []) :
    orderOf points ≠ [] := by
  obtain ⟨p, hp⟩ := List.exists_mem_of_ne_nil points h
  intro hnil
  have hmem : pointIndex p ∈ orderOf points :=
    mem_orderOf_iff.mpr ⟨p, hp, rfl⟩
  rw [hnil] at hmem
  exact List.not_mem_nil _ hmem

theorem orderOf_getLast_exists {points : List Record} (h : points ≠ []) :
    ∃ mp, (orderOf points).getLast? = some mp := by
  rcases ho : (orderOf points).getLast? with _ | mp
  · rw [List.getLast?_eq_none_iff] at ho
    exact absurd ho (orderOf_ne_nil h)
  · exact ⟨mp, rfl⟩

theorem pairwise_lt_getLast {l : List GKey} :
    List.Pairwise keylt l → ∀ {m : GKey}, l.getLast? = some m →
      ∀ k ∈ l, k = m ∨ keylt k m := by
  induction l with
  | nil =>
    intro _ m hm
    simp at hm
  | cons a t ih =>
    intro hs m hm k hk
    cases t with
    | nil =>
      simp only [List.getLast?_singleton, Option.some.injEq] at hm
      rcases List.mem_singleton.mp hk with rfl
      exact Or.inl hm
    | cons b t' =>
      rw [List.getLast?_cons_cons] at hm
      rcases List.mem_cons.mp hk with rfl | hk'
      · exact Or.inr
          (List.rel_of_pairwise_cons hs (List.mem_of_getLast?_eq_some hm))
      · exact ih hs.of_cons hm k hk'

theorem orderOf_perm {points points' : List Record}
    (hp : points'.Perm points) : orderOf points' = orderOf points := by
  have h1 : (((sortedPoints points').map pointIndex).dedup).Perm
      (((sortedPoints points).map pointIndex).dedup) :=
    (((sortedPoints_perm points').trans
      (hp.trans (sortedPoints_perm points).symm)).map pointIndex).dedup
  exact List.eq_of_perm_of_sorted
    (((List.perm_insertionSort keyle _).trans h1).trans
      (List.perm_insertionSort keyle _).symm)
    (List.sorted_insertionSort keyle _) (List.sorted_insertionSort keyle _)

/-! ## Shape of the rows the merge produces -/

/-- The group key a finished row displays in its first two positions. -/
def rowKey (row : List Int) : GKey := (row.getD 0 0, row.getD 1 0)

theorem key_of_mem_occurrences {ps : List Record} {k : GKey} {p : Record}
    (h : p ∈ occurrences ps k) : pointIndex p = k := by
  rw [occurrences, List.mem_filter] at h
  exact of_decide_eq_true h.2

theorem occurrences_ne_nil {points : List Record} {k : GKey}
    (hk : k ∈ orderOf points) :
    occurrences (sortedPoints points) k ≠ [] := by
  obtain ⟨p, hp, rfl⟩ := mem_orderOf_iff.mp hk
  intro hnil
  have hmem : p ∈ occurrences (sortedPoints points) (pointIndex p) := by
    rw [occurrences, List.mem_filter]
    exact ⟨(sortedPoints_perm points).mem_iff.mpr hp, by simp⟩
  rw [hnil] at hmem
  exact List.not_mem_nil _ hmem

theorem mergeSpec_shape (mp : GKey) {k : GKey} {ps : List Record}
    (hocc : occurrences ps k ≠ []) :
    ∃ row, mergeSpec mp ps k = some row ∧
      (row.length = 4 ∨ row.length = 6) ∧ rowKey row = k ∧
      (k = mp → row.length = 6) := by
  unfold mergeSpec
  by_cases hkm : k = mp
  · subst hkm
    rw [if_pos rfl]
    rcases hl : (occurrences ps k).getLast? with _ | p
    · rw [List.getLast?_eq_none_iff] at hl
      exact absurd hl hocc
    · have hpk : pointIndex p = k :=
        key_of_mem_occurrences (List.mem_of_getLast?_eq_some hl)
      refine ⟨dupRow p, rfl, Or.inr rfl, ?_, fun _ => rfl⟩
      rw [← hpk]
      simp [rowKey, dupRow, pointIndex]
  · rw [if_neg hkm]
    rcases hocc2 : occurrences ps k with _ | ⟨p, _ | ⟨q, rest⟩⟩
    · exact absurd hocc2 hocc
    · have hpk : pointIndex p = k :=
        key_of_mem_occurrences (hocc2 ▸ List.mem_cons_self p [])
      refine ⟨fwdRow p, rfl, Or.inl rfl, ?_, fun h => absurd h hkm⟩
      rw [← hpk]
      simp [rowKey, fwdRow, pointIndex]
    · have hpk : pointIndex p = k :=
        key_of_mem_occurrences (hocc2 ▸ List.mem_cons_self p (q :: rest))
      refine ⟨pairRow p q, rfl, Or.inr rfl, ?_, fun h => absurd h hkm⟩
      rw [← hpk]
      simp [rowKey, pairRow, pointIndex]

theorem collectRows_of_forall {out : OutMap} (P : GKey → List Int → Prop) :
    ∀ {ks : List GKey}, (∀ k ∈ ks, ∃ row, out k = some row ∧ P k row) →
      ∃ rows, collectRows out ks = some rows ∧
        List.Forall₂ (fun k row => out k = some row ∧ P k row) ks rows := by
  intro ks
  induction ks with
  | nil => exact fun _ => ⟨[], rfl, List.Forall₂.nil⟩
  | cons k ks ih =>
    intro h
    obtain ⟨row, hrow, hP⟩ := h k (List.mem_cons_self k ks)
    obtain ⟨rows, hrows, hfa⟩ := ih (fun j hj => h j (List.mem_cons_of_mem _ hj))
    refine ⟨row :: rows, ?_, List.Forall₂.cons ⟨hrow, hP⟩ hfa⟩
    unfold collectRows
    rw [hrow, hrows]

theorem forall2_mem_right {α β : Type} {R : α → β → Prop}
    {ks : List α} {rows : List β} (hfa : List.Forall₂ R ks rows)
    {row : β} (hrow : row ∈ rows) : ∃ k, R k row := by
  induction hfa with
  | nil => cases hrow
  | cons hR hfa' ih =>
    rcases List.mem_cons.mp hrow with rfl | hrow'
    · exact ⟨_, hR⟩
    · exact ih hrow'

theorem forall2_map_eq {R : GKey → List Int → Prop}
    {ks : List GKey} {rows : List (List Int)}
    (hfa : List.Forall₂ R ks rows) (h : ∀ k row, R k row → rowKey row = k) :
    rows.map rowKey = ks := by
  induction hfa with
  | nil => rfl
  | cons hR _ ih => simp [ih, h _ _ hR]

theorem forall2_getLast {α β : Type} {R : α → β → Prop} :
    ∀ {ks : List α} {rows : List β}, List.Forall₂ R ks rows →
      ∀ {k : α}, ks.getLast? = some k →
        ∃ row, rows.getLast? = some row ∧ R k row := by
  intro ks
  induction ks with
  | nil =>
    intro rows hfa k hk
    simp at hk
  | cons a t ih =>
    intro rows hfa k hk
    cases hfa with
    | cons hR hfa' =>
      cases t with
      | nil =>
        cases hfa'
        simp only [List.getLast?_singleton, Option.some.injEq] at hk
        exact ⟨_, rfl, hk ▸ hR⟩
      | cons a' t' =>
        rw [List.getLast?_cons_cons] at hk
        obtain ⟨row, hrow, hRk⟩ := ih hfa' hk
        cases hfa' with
        | cons hR' hfa'' =>
          rw [List.getLast?_cons_cons]
          exact ⟨row, hrow, hRk⟩

/-- Master description of a successful run of `calculate_rates`: the output
has one row per distinct key in ascending key order, each row as described by
`mergeSpec` via the fold. -/
theorem calculate_rates_spec {points : List Record} (h : points ≠ []) :
    ∃ mp rows, (orderOf points).getLast? = some mp ∧
      calculate_rates points = some rows ∧
      List.Forall₂ (fun k row =>
        foldOut mp (sortedPoints points) k = some row ∧
        ((row.length = 4 ∨ row.length = 6) ∧ rowKey row = k ∧
          (k = mp → row.length = 6))) (orderOf points) rows := by
  obtain ⟨mp, hmp⟩ := orderOf_getLast_exists h
  have hall : ∀ k ∈ orderOf points,
      ∃ row, foldOut mp (sortedPoints points) k = some row ∧
        ((row.length = 4 ∨ row.length = 6) ∧ rowKey row = k ∧
          (k = mp → row.length = 6)) := by
    intro k hk
    rw [foldOut_eq_mergeSpec]
    obtain ⟨row, hrow, hlen, hkey, hmax⟩ :=
      mergeSpec_shape mp (occurrences_ne_nil hk)
    exact ⟨row, hrow, hlen, hkey, hmax⟩
  obtain ⟨rows, hrows, hfa⟩ := collectRows_of_forall _ hall
  refine ⟨mp, rows, hmp, ?_, hfa⟩
  unfold calculate_rates
  rw [hmp]
  exact hrows

/-! ## Concrete inputs used by the witnesses -/

/-- Three records: key (100, 50) twice (stamps 1 and 3) and the maximum key
(200, 80) once (stamp 2). -/
def demoPoints : List Record :=
  [⟨1, 100, 50, 10, 11⟩, ⟨2, 200, 80, 20, 21⟩, ⟨3, 100, 50, 30, 31⟩]

/-- As `demoPoints`, with a third occurrence (stamp 4) of key (100, 50). -/
def demoPoints3 : List Record :=
  [⟨1, 100, 50, 10, 11⟩, ⟨2, 200, 80, 20, 21⟩, ⟨3, 100, 50, 30, 31⟩,
   ⟨4, 100, 50, 40, 41⟩]

/-! ## The claims about the Stroke Merger -/

/-- C1: for every record whose key equals `max_point` — the key that is
greatest under tuple ordering among all distinct keys — the merge loop
(re)writes the entry for that key as the 6-value row duplicating that single
reading into both stroke slots, whatever the dict held before; hence the
final entry for `max_point` is the duplicated row of its last occurrence. -/
theorem calculate_rates_max_point_rule (points : List Record)
    (h : points ≠ []) :
    ∃ mp, (orderOf points).getLast? = some mp ∧
      (∀ k ∈ orderOf points, k = mp ∨ keylt k mp) ∧
      (∀ out : OutMap, ∀ p : Record, pointIndex p = mp →
        step mp out p mp = some (dupRow p)) ∧
      (∃ q, (occurrences (sortedPoints points) mp).getLast? = some q ∧
        foldOut mp (sortedPoints points) mp = some (dupRow q)) := by
  obtain ⟨mp, hmp⟩ := orderOf_getLast_exists h
  refine ⟨mp, hmp, pairwise_lt_getLast (orderOf_pairwise_lt points) hmp, ?_, ?_⟩
  · intro out p hp
    unfold step
    rw [if_pos hp, hp, updateOut_self]
  · have hmem : mp ∈ orderOf points := List.mem_of_getLast?_eq_some hmp
    rcases hq : (occurrences (sortedPoints points) mp).getLast? with _ | q
    · rw [List.getLast?_eq_none_iff] at hq
      exact absurd hq (occurrences_ne_nil hmem)
    · refine ⟨q, rfl, ?_⟩
      rw [foldOut_eq_mergeSpec]
      unfold mergeSpec
      rw [if_pos rfl, hq, Option.map_some']

/-- Witness for C1 at `demoPoints`. -/
theorem calculate_rates_max_point_rule_witness :
    ∃ mp, (orderOf demoPoints).getLast? = some mp ∧
      (∀ k ∈ orderOf demoPoints, k = mp ∨ keylt k mp) ∧
      (∀ out : OutMap, ∀ p : Record, pointIndex p = mp →
        step mp out p mp = some (dupRow p)) ∧
      (∃ q, (occurrences (sortedPoints demoPoints) mp).getLast? = some q ∧
        foldOut mp (sortedPoints demoPoints) mp = some (dupRow q)) :=
  calculate_rates_max_point_rule demoPoints (by decide)

/-- C2: for a key other than `max_point`, when its first (chronologically)
occurrence is the only one, the entry is the 4-value forward row of that
occurrence; when a second occurrence exists, the entry is that forward row
extended at positions 5 and 6 with the second occurrence's viscosity and
shear-stress values. -/
theorem calculate_rates_first_then_second (points : List Record)
    (mp k : GKey) (hmp : (orderOf points).getLast? = some mp) (hk : k ≠ mp) :
    (∀ p, occurrences (sortedPoints points) k = [p] →
      foldOut mp (sortedPoints points) k = some (fwdRow p)) ∧
    (∀ p q rest, occurrences (sortedPoints points) k = p :: q :: rest →
      foldOut mp (sortedPoints points) k =
        some (fwdRow p ++ [q.viscosity, q.shearStress])) := by
  constructor
  · intro p hocc
    rw [foldOut_eq_mergeSpec]
    unfold mergeSpec
    rw [if_neg hk, hocc]
  · intro p q rest hocc
    rw [foldOut_eq_mergeSpec]
    unfold mergeSpec
    rw [if_neg hk, hocc]
    simp [fwdRow, pairRow]

/-- Witness for C2 at `demoPoints` and key (100, 50). -/
theorem calculate_rates_first_then_second_witness :
    foldOut (200, 80) (sortedPoints demoPoints) (100, 50) =
      some (fwdRow ⟨1, 100, 50, 10, 11⟩ ++ [(30 : Int), 31]) :=
  (calculate_rates_first_then_second demoPoints (200, 80) (100, 50)
      (by decide) (by decide)).2
    ⟨1, 100, 50, 10, 11⟩ ⟨3, 100, 50, 30, 31⟩ [] (by decide)

/-- C7: for a key other than `max_point` occurring three or more times, the
final entry reflects only the first two occurrences — the third and all
later occurrences leave the row unchanged. -/
theorem calculate_rates_drops_third_occurrence (points : List Record)
    (mp k : GKey) (hmp : (orderOf points).getLast? = some mp) (hk : k ≠ mp)
    (p q r : Record) (rest : List Record)
    (hocc : occurrences (sortedPoints points) k = p :: q :: r :: rest) :
    foldOut mp (sortedPoints points) k = some (pairRow p q) := by
  rw [foldOut_eq_mergeSpec]
  unfold mergeSpec
  rw [if_neg hk, hocc]

/-- Witness for C7 at `demoPoints3` and key (100, 50), occurring 3 times. -/
theorem calculate_rates_drops_third_occurrence_witness :
    foldOut (200, 80) (sortedPoints demoPoints3) (100, 50) =
      some (pairRow ⟨1, 100, 50, 10, 11⟩ ⟨3, 100, 50, 30, 31⟩) :=
  calculate_rates_drops_third_occurrence demoPoints3 (200, 80) (100, 50)
    (by decide) (by decide) ⟨1, 100, 50, 10, 11⟩ ⟨3, 100, 50, 30, 31⟩
    ⟨4, 100, 50, 40, 41⟩ [] (by decide)

/-- C5: on nonempty input the rows come out strictly ascending by group key
(speed, then shear rate), and the sequence of row keys is the same for every
permutation of the input list. -/
theorem calculate_rates_output_order (points : List Record)
    (h : points ≠ []) :
    ∃ rows, calculate_rates points = some rows ∧
      List.Pairwise keylt (rows.map rowKey) ∧
      ∀ points' : List Record, points'.Perm points →
        ∃ rows', calculate_rates points' = some rows' ∧
          rows'.map rowKey = rows.map rowKey := by
  obtain ⟨mp, rows, hmp, hcr, hfa⟩ := calculate_rates_spec h
  have hmap : rows.map rowKey = orderOf points :=
    forall2_map_eq hfa (fun k row hR => hR.2.2.1)
  refine ⟨rows, hcr, by rw [hmap]; exact orderOf_pairwise_lt points, ?_⟩
  intro points' hperm
  have h' : points' ≠ [] := by
    intro hnil
    rw [hnil] at hperm
    exact h (hperm.symm.eq_nil ▸ rfl)
  obtain ⟨mp', rows', hmp', hcr', hfa'⟩ := calculate_rates_spec h'
  have hmap' : rows'.map rowKey = orderOf points' :=
    forall2_map_eq hfa' (fun k row hR => hR.2.2.1)
  exact ⟨rows', hcr', by rw [hmap, hmap', orderOf_perm hperm]⟩

/-- Witness for C5 at `demoPoints`. -/
theorem calculate_rates_output_order_witness :
    ∃ rows, calculate_rates demoPoints = some rows ∧
      List.Pairwise keylt (rows.map rowKey) ∧
      ∀ points' : List Record, points'.Perm demoPoints →
        ∃ rows', calculate_rates points' = some rows' ∧
          rows'.map rowKey = rows.map rowKey :=
  calculate_rates_output_order demoPoints (by decide)

/-- C6: on nonempty input every produced row has length 4 or 6, and the row
of the maximum-speed group key (the last row) has length 6. -/
theorem calculate_rates_row_lengths (points : List Record)
    (h : points ≠ []) :
    ∃ mp rows lastRow, (orderOf points).getLast? = some mp ∧
      calculate_rates points = some rows ∧
      (∀ row ∈ rows, row.length = 4 ∨ row.length = 6) ∧
      rows.getLast? = some lastRow ∧ rowKey lastRow = mp ∧
      lastRow.length = 6 := by
  obtain ⟨mp, rows, hmp, hcr, hfa⟩ := calculate_rates_spec h
  obtain ⟨lastRow, hlast, hR⟩ := forall2_getLast hfa hmp
  exact ⟨mp, rows, lastRow, hmp, hcr,
    fun row hrow => (forall2_mem_right hfa hrow).elim (fun k hk => hk.2.1),
    hlast, hR.2.2.1, hR.2.2.2 rfl⟩

/-- Witness for C6 at `demoPoints`. -/
theorem calculate_rates_row_lengths_witness :
    ∃ mp rows lastRow, (orderOf demoPoints).getLast? = some mp ∧
      calculate_rates demoPoints = some rows ∧
      (∀ row ∈ rows, row.length = 4 ∨ row.length = 6) ∧
      rows.getLast? = some lastRow ∧ rowKey lastRow = mp ∧
      lastRow.length = 6 :=
  calculate_rates_row_lengths demoPoints (by decide)

/-- C10: on the empty record list `calculate_rates` raises (indexing the
last element of the empty sorted key list) — modelled as `none` — rather
than returning the empty row list. -/
theorem calculate_rates_empty_input :
    calculate_rates ([] : List Record) = none := by decide

/-! ## The claims about the Record Reader -/

/-- C3, counterexample to the claim as stated: the field names of the
returned record come from the THIRD-to-last row of the grid (`data[-3]`),
not the second-to-last.  In `gridC3` the third-to-last row is `["A"]` and
the second-to-last is `["B"]`; the record maps `"A"`, and differs from the
mapping the second-to-last row would have produced. -/
theorem read_data_not_second_to_last :
    read_data dtparseAny gridC3 = some ⟨0, [("A", PyVal.int 1)]⟩ ∧
    gridC3[gridC3.length - 3]? = some ["A"] ∧
    gridC3[gridC3.length - 2]? = some ["B"] ∧
    gridC3[gridC3.length - 1]? = some ["1"] ∧
    [("A", PyVal.int 1)] ≠
      List.zip ["B"] (List.map transform_value ["1"]) := by decide

/-- C3 (amended): every record returned by `read_data` maps each field name
taken from the third-to-last row of the grid to the coerced value at the
same position in the last row (zip truncating to the shorter), merged with
the `DT` timestamp parsed from row index 7. -/
theorem read_data_field_source (dtparse : String → Option Int)
    (data : List (List String)) (r : PRecord)
    (h : read_data dtparse data = some r) :
    ∃ names vals, data[data.length - 3]? = some names ∧
      data[data.length - 1]? = some vals ∧
      r.fields = names.zip (vals.map transform_value) ∧
      ∃ row7 c2 c3, data[7]? = some row7 ∧ row7[2]? = some c2 ∧
        row7[3]? = some c3 ∧ dtparse (c2 ++ " " ++ c3) = some r.dt := by
  rcases h7 : data[7]? with _ | row7
  · simp only [read_data, h7] at h
    exact Option.noConfusion h
  rcases h2 : row7[2]? with _ | c2
  · simp only [read_data, h7, h2] at h
    exact Option.noConfusion h
  rcases h3 : row7[3]? with _ | c3
  · simp only [read_data, h7, h2, h3] at h
    exact Option.noConfusion h
  rcases hdt : dtparse (c2 ++ " " ++ c3) with _ | dt
  · simp only [read_data, h7, h2, h3, hdt] at h
    exact Option.noConfusion h
  rcases hn : (if 3 ≤ data.length then data[data.length - 3]? else none)
      with _ | names
  · simp only [read_data, h7, h2, h3, hdt, hn] at h
    exact Option.noConfusion h
  rcases hv : (if 1 ≤ data.length then data[data.length - 1]? else none)
      with _ | vals
  · simp only [read_data, h7, h2, h3, hdt, hn, hv] at h
    exact Option.noConfusion h
  simp only [read_data, h7, h2, h3, hdt, hn, hv, Option.some.injEq] at h
  subst h
  have hlen : 8 ≤ data.length := by
    by_contra hc
    rw [List.getElem?_eq_none (by omega)] at h7
    exact Option.noConfusion h7
  rw [if_pos (by omega)] at hn
  rw [if_pos (by omega)] at hv
  exact ⟨names, vals, hn, hv, rfl, row7, c2, c3, rfl, h2, h3, hdt⟩

/-- Witness for C3 (amended) at `gridC3`. -/
theorem read_data_field_source_witness :
    ∃ names vals, gridC3[gridC3.length - 3]? = some names ∧
      gridC3[gridC3.length - 1]? = some vals ∧
      (PRecord.mk 0 [("A", PyVal.int 1)]).fields =
        names.zip (vals.map transform_value) ∧
      ∃ row7 c2 c3, gridC3[7]? = some row7 ∧ row7[2]? = some c2 ∧
        row7[3]? = some c3 ∧
        dtparseAny (c2 ++ " " ++ c3) =
          some (PRecord.mk 0 [("A", PyVal.int 1)]).dt :=
  read_data_field_source dtparseAny gridC3 ⟨0, [("A", PyVal.int 1)]⟩
    (by decide)

/-- C4, counterexample to the claim as stated: trailing rows of different
lengths do NOT make `read_data` fail — the zip silently truncates.  In
`gridC4` the header row `["A", "B"]` has 2 cells and the value row `["1"]`
has 1 cell, yet a record is returned. -/
theorem read_data_ragged_rows_ok :
    read_data dtparseAny gridC4 = some ⟨0, [("A", PyVal.int 1)]⟩ ∧
    gridC4[gridC4.length - 3]? = some ["A", "B"] ∧
    gridC4[gridC4.length - 1]? = some ["1"] ∧
    (["A", "B"] : List String).length ≠ (["1"] : List String).length := by
  decide

/-- C4 (amended): `read_data` fails with a propagated error when the grid
has fewer than 8 rows, when row index 7 has fewer than 4 cells, or when
date/time parsing of the two timestamp cells fails; no recovery is
attempted.  (Trailing rows differing in length are not an error: the zip
truncates — see the counterexample.) -/
theorem read_data_failure_conditions (dtparse : String → Option Int)
    (data : List (List String)) :
    (data.length < 8 → read_data dtparse data = none) ∧
    (∀ row7, data[7]? = some row7 → row7.length < 4 →
      read_data dtparse data = none) ∧
    (∀ row7 c2 c3, data[7]? = some row7 → row7[2]? = some c2 →
      row7[3]? = some c3 → dtparse (c2 ++ " " ++ c3) = none →
      read_data dtparse data = none) := by
  refine ⟨?_, ?_, ?_⟩
  · intro hlen
    have h7 : data[7]? = none := List.getElem?_eq_none (by omega)
    simp only [read_data, h7]
  · intro row7 h7 hlen
    rcases h2 : row7[2]? with _ | c2
    · simp only [read_data, h7, h2]
    · have h3 : row7[3]? = none :=
        List.getElem?_eq_none (show row7.length ≤ 3 by omega)
      simp only [read_data, h7, h2, h3]
  · intro row7 c2 c3 h7 h2 h3 hdt
    simp only [read_data, h7, h2, h3, hdt]

/-- Witness for C4 (amended): a 7-row grid fails; a grid whose timestamp
cells the date parser rejects fails. -/
theorem read_data_failure_conditions_witness :
    read_data dtparseAny [[], [], [], [], [], [], []] = none ∧
    read_data dtparseNone gridC3 = none :=
  ⟨(read_data_failure_conditions dtparseAny
      [[], [], [], [], [], [], []]).1 (by decide),
   (read_data_failure_conditions dtparseNone gridC3).2.2
      ["", "", "d", "t"] "d" "t" (by decide) (by decide) (by decide)
      (by decide)⟩

/-! ## The claim about the Value Coercer -/

/-- C8: `transform_value` attempts the integer parse first — when it
succeeds the exact integer is returned; otherwise, when the float parse
succeeds, the (exact rational) float value is returned; otherwise the
original text is returned unchanged.  It is a pure function of its input. -/
theorem transform_value_spec (s : String) :
    (∀ n : Int, pyParseInt s = some n → transform_value s = PyVal.int n) ∧
    (pyParseInt s = none → ∀ q : Rat, pyParseFloat s = some q →
      transform_value s = PyVal.float q) ∧
    (pyParseInt s = none → pyParseFloat s = none →
      transform_value s = PyVal.str s) := by
  refine ⟨?_, ?_, ?_⟩
  · intro n hn
    unfold transform_value
    rw [hn]
  · intro hn q hq
    unfold transform_value
    rw [hn, hq]
  · intro hn hq
    unfold transform_value
    rw [hn, hq]

/-- Witness for C8: an integer literal, a non-integer decimal, and plain
text. -/
theorem transform_value_spec_witness :
    transform_value ("250") = PyVal.int 250 ∧
    transform_value ("0.25") = PyVal.float (mkRat 1 4) ∧
    transform_value ("N/A") = PyVal.str ("N/A") :=
  ⟨(transform_value_spec ("250")).1 250 (by decide),
   (transform_value_spec ("0.25")).2.1 (by decide) (mkRat 1 4) (by decide),
   (transform_value_spec ("N/A")).2.2 (by decide) (by decide)⟩

/-! ## The claim about the Dialect Sniffer -/

/-- A text stream: the content plus the read position (`fp.seek`/`fp.read`
state). -/
structure TextStream where
  content : String
  pos : Nat
deriving DecidableEq, Repr

/-- `fp.read(n)`: the next `n` characters, advancing the position. -/
def readChars (fp : TextStream) (n : Nat) : String × TextStream :=
  (String.mk ((fp.content.data.drop fp.pos).take n),
   ⟨fp.content, min (fp.pos + n) fp.content.length⟩)

/-- `fp.seek(0)`. -/
def seekStart (fp : TextStream) : TextStream := ⟨fp.content, 0⟩

/-- A CSV dialect: delimiter and quote character. -/
structure Dialect where
  delimiter : Char
  quotechar : Char
deriving DecidableEq, Repr

/-- `csv.excel`: comma-delimited, standard double-quote quoting. -/
def excelDialect : Dialect := ⟨',', '"'⟩

/-- The restricted candidate delimiter set `',;\t'` passed to the sniffer. -/
def sniffDelimiters : List Char := [',', ';', '\t']

/-- `sniff_dialect` (src/datajoin.py lines 40–53).  `csv.Sniffer().sniff`
is external library code, modelled as an abstract total detector taking the
sample and the candidate delimiter list and returning either a dialect or a
`csv.Error` (`Except.error`); the `try`/`except csv.Error`/`finally`
structure of the source is explicit: the sample is `fp.read(2000)`, on
error the fallback `csv.excel` is returned, and the `finally: fp.seek(0)`
rewind happens on both paths. -/
def sniff_dialect (sniffer : String → List Char → Except Unit Dialect)
    (fp : TextStream) : Dialect × TextStream :=
  match sniffer (readChars fp 2000).1 sniffDelimiters with
  | Except.ok d => (d, seekStart (readChars fp 2000).2)
  | Except.error _ => (excelDialect, seekStart (readChars fp 2000).2)

/-- C9: `sniff_dialect` never raises — it is total: for every stream and
every detector it returns either the dialect the detector found (whose
delimiter is in the candidate set {comma, semicolon, tab}, granted the
detector only picks from the set it is given) or the fixed fallback
`csv.excel` = (comma, standard quoting); and the stream it hands back is
rewound to the start with its content untouched. -/
theorem sniff_dialect_spec
    (sniffer : String → List Char → Except Unit Dialect) (fp : TextStream)
    (hs : ∀ s ds d, sniffer s ds = Except.ok d → d.delimiter ∈ ds) :
    ((sniff_dialect sniffer fp).1.delimiter ∈ sniffDelimiters ∨
      (sniff_dialect sniffer fp).1 = excelDialect) ∧
    (sniff_dialect sniffer fp).2.pos = 0 ∧
    (sniff_dialect sniffer fp).2.content = fp.content ∧
    excelDialect.delimiter = ',' ∧ excelDialect.quotechar = '"' := by
  unfold sniff_dialect
  rcases h : sniffer (readChars fp 2000).1 sniffDelimiters with e | d
  · exact ⟨Or.inr rfl, rfl, rfl, rfl, rfl⟩
  · exact ⟨Or.inl (hs _ _ _ h), rfl, rfl, rfl, rfl⟩

/-- A detector that always reports the ambiguous-sample error. -/
def failingSniffer : String → List Char → Except Unit Dialect :=
  fun _ _ => Except.error ()

/-- A one-line comma-separated demo stream. -/
def demoStream : TextStream := ⟨"a,b\r\n1,2\r\n", 0⟩

/-- Witness for C9: the always-failing detector on the demo stream. -/
theorem sniff_dialect_spec_witness :
    ((sniff_dialect failingSniffer demoStream).1.delimiter ∈
        sniffDelimiters ∨
      (sniff_dialect failingSniffer demoStream).1 = excelDialect) ∧
    (sniff_dialect failingSniffer demoStream).2.pos = 0 ∧
    (sniff_dialect failingSniffer demoStream).2.content =
      demoStream.content ∧
    excelDialect.delimiter = ',' ∧ excelDialect.quotechar = '"' :=
  sniff_dialect_spec failingSniffer demoStream
    (fun s ds d h => by simp [failingSniffer] at h)

end Datajoin
